import Mathlib

/-!
Verification of the lldb-toybox hash-container rendering core.

This file shallowly embeds the pure algorithmic content of the repository:

* `lldb_toybox/lib/utils.py`    — `is_pow2`, `is_prime`
* `lldb_toybox/lib/iterable.py` — `IterableContainerSynthetic` (lazy enumeration cache)
* `lldb_toybox/lib/sorting.py`  — `SortingSyntheticAdapter` (natural-order reconstruction)
* `lldb_toybox/lib/paging.py`   — `PagingSyntheticAdapter` (range pager)
* `lldb_toybox/libcxx.py` / `lldb_toybox/abseil.py` — the `validate()` checks

Machine integers read from process memory (`GetValueAsUnsigned` etc.) are
modelled as `ℕ`/`ℤ`; Python's `math.ceil(a / b)` on the small counts involved
is modelled as exact ceiling division, and `int(n ** 0.5)` as `Nat.sqrt`.
Python `None`-or-value returns become `Option`; an uncaught Python exception
(such as `IndexError` from list subscription) is a distinguished result
constructor.
-/

namespace Toybox

/-! ### utils.py -/

/-- `utils.is_pow2`: `(number + 1) & number == 0`.
Despite its name this tests whether `number` is one less than a power of two. -/
def is_pow2 (number : ℕ) : Bool :=
  (number + 1) &&& number == 0

/-- `utils.is_prime`: trial division by every `divisor` in
`range(2, int(number**0.5) + 1)`; `int(number**0.5)` is modelled as `Nat.sqrt`. -/
def is_prime (number : ℕ) : Bool :=
  if number ≤ 1 then false
  else (List.range' 2 (Nat.sqrt number + 1 - 2)).all (fun divisor => number % divisor != 0)

/-- A power of two and its predecessor share no set bit. -/
lemma pow_land_pow_sub_one (k : ℕ) : (2 ^ k) &&& (2 ^ k - 1) = 0 := by
  apply Nat.eq_of_testBit_eq
  intro i
  simp only [Nat.testBit_and, Nat.testBit_two_pow, Nat.testBit_two_pow_sub_one,
    Nat.zero_testBit]
  by_cases h : k = i
  · subst h
    simp
  · simp [h]

/-- Forward direction of the `is_pow2` characterization:
if `n + 1` and `n` share no set bit then `n + 1` is a power of two. -/
lemma exists_pow_of_land_eq_zero (n : ℕ) : (n + 1) &&& n = 0 → ∃ k, n + 1 = 2 ^ k := by
  induction n using Nat.strong_induction_on with
  | _ n ih =>
    intro h
    rcases Nat.even_or_odd n with he | ho
    · obtain ⟨m, hm⟩ := he
      have hbits : ∀ i, m.testBit i = false := by
        intro i
        have hb : Nat.testBit ((n + 1) &&& n) (i + 1) = Nat.testBit 0 (i + 1) := by
          rw [h]
        simp only [Nat.testBit_and, Nat.zero_testBit] at hb
        rw [Nat.testBit_succ, Nat.testBit_succ] at hb
        have e1 : (n + 1) / 2 = m := by omega
        have e2 : n / 2 = m := by omega
        rw [e1, e2] at hb
        simpa using hb
      have hm0 : m = 0 :=
        Nat.eq_of_testBit_eq (fun i => by simp [hbits i, Nat.zero_testBit])
      refine ⟨0, by omega⟩
    · obtain ⟨m, hm⟩ := ho
      have hrec : (m + 1) &&& m = 0 := by
        apply Nat.eq_of_testBit_eq
        intro i
        have hb : Nat.testBit ((n + 1) &&& n) (i + 1) = Nat.testBit 0 (i + 1) := by
          rw [h]
        simp only [Nat.testBit_and, Nat.zero_testBit] at hb
        rw [Nat.testBit_succ, Nat.testBit_succ] at hb
        have e1 : (n + 1) / 2 = m + 1 := by omega
        have e2 : n / 2 = m := by omega
        rw [e1, e2] at hb
        simp [Nat.testBit_and, hb, Nat.zero_testBit]
      obtain ⟨k, hk⟩ := ih m (by omega) hrec
      exact ⟨k + 1, by rw [pow_succ]; omega⟩

/-- `is_pow2 n` holds exactly when `n + 1` is a power of two,
i.e. when `n` has the form `2 ^ k - 1`. -/
lemma is_pow2_eq_true_iff (n : ℕ) : is_pow2 n = true ↔ ∃ k, n + 1 = 2 ^ k := by
  unfold is_pow2
  rw [beq_iff_eq]
  constructor
  · exact exists_pow_of_land_eq_zero n
  · rintro ⟨k, hk⟩
    have h1 : (1 : ℕ) ≤ 2 ^ k := Nat.one_le_two_pow
    have hn : n = 2 ^ k - 1 := by omega
    rw [hk, hn]
    exact pow_land_pow_sub_one k

/-- `is_prime` agrees with mathematical primality. -/
lemma is_prime_eq_true_iff (n : ℕ) : is_prime n = true ↔ Nat.Prime n := by
  unfold is_prime
  by_cases h1 : n ≤ 1
  · simp only [h1, if_true]
    constructor
    · intro h
      exact absurd h (by simp)
    · intro hp
      have := hp.two_le
      omega
  · have h2 : 2 ≤ n := by omega
    have hs : 1 ≤ Nat.sqrt n := by
      have := Nat.sqrt_pos.mpr (show 0 < n by omega)
      omega
    simp only [h1, if_false, List.all_eq_true]
    rw [Nat.prime_def_le_sqrt]
    constructor
    · intro hall
      refine ⟨h2, fun m hm2 hmsqrt hdvd => ?_⟩
      have hmem : m ∈ List.range' 2 (Nat.sqrt n + 1 - 2) := by
        rw [List.mem_range'_1]
        omega
      have hm := hall m hmem
      rw [bne_iff_ne, ne_eq] at hm
      exact hm (Nat.mod_eq_zero_of_dvd hdvd)
    · rintro ⟨-, hforall⟩ d hd
      rw [List.mem_range'_1] at hd
      rw [bne_iff_ne, ne_eq]
      intro hmod
      exact hforall d hd.1 (by omega) (Nat.dvd_of_mod_eq_zero hmod)

/-! ### `validate()` of the two container models

`LibCXXHashContainer.validate` (lldb_toybox/libcxx.py) reads the stored bucket
count; `AbseilHashContainer.validate` (lldb_toybox/abseil.py) reads the stored
capacity and size (the latter is the `size_` field shifted right by one).  The
already-read numeric fields are the parameters here. -/

/-- `LibCXXHashContainer.validate`. -/
def libcxx_validate (bucket_count : ℕ) : Option String :=
  if bucket_count ≠ 0 ∧ is_pow2 bucket_count = false ∧ is_prime bucket_count = false then
    some s!"Bucket count {bucket_count} is neither pow2 nor prime"
  else none

/-- `AbseilHashContainer.validate` (early-return structure flattened into nesting). -/
def abseil_validate (capacity size : ℕ) : Option String :=
  if is_pow2 capacity then
    if capacity < size then some s!"Size {size} exceeds capacity {capacity}"
    else none
  else some s!"Capacity {capacity} is not pow2"

/-- `is_prime` is false exactly on non-primes. -/
lemma is_prime_eq_false_iff (n : ℕ) : is_prime n = false ↔ ¬ Nat.Prime n := by
  rw [← is_prime_eq_true_iff, Bool.eq_false_iff, ne_eq]

/-- Boolean-level characterization of `LibCXXHashContainer.validate`. -/
lemma libcxx_validate_eq_none_iff (b : ℕ) :
    libcxx_validate b = none ↔ b = 0 ∨ is_pow2 b = true ∨ is_prime b = true := by
  unfold libcxx_validate
  by_cases hb : b ≠ 0 ∧ is_pow2 b = false ∧ is_prime b = false
  · rw [if_pos hb]
    obtain ⟨h0, hp, hq⟩ := hb
    simp [h0, hp, hq]
  · rw [if_neg hb]
    simp only [true_iff]
    by_contra hc
    push_neg at hc
    exact hb ⟨hc.1, Bool.eq_false_iff.mpr hc.2.1, Bool.eq_false_iff.mpr hc.2.2⟩

/-- C4, counterexample: the claim says `validate()` accepts every power-of-two
bucket count such as 4, but the code reports an error for bucket count 4
(`is_pow2` actually tests for `2 ^ k - 1`), and it accepts 0, for which the
claim demands an error. -/
theorem toybox_C4_pow2_rejected_cex :
    libcxx_validate 4 = some "Bucket count 4 is neither pow2 nor prime"
      ∧ (4 : ℕ) = 2 ^ 2 ∧ libcxx_validate 0 = none := by
  have hq : is_prime 4 = false := (is_prime_eq_false_iff 4).mpr (by norm_num)
  refine ⟨?_, rfl, rfl⟩
  unfold libcxx_validate
  rw [if_pos ⟨by norm_num, by decide, hq⟩]
  rfl

/-- C4, amended: `validate()` returns an error description exactly when the
stored bucket count is nonzero, not of the form `2 ^ k - 1` (what the `is_pow2`
helper actually tests), and not prime; otherwise `None` — so in particular it
returns `None` for 0 and for every count of the form `2 ^ k - 1` such as 3 or 7,
and an error for true powers of two like 4 or 8. -/
theorem toybox_C4_validate_amended :
    (∀ b : ℕ, libcxx_validate b = none ↔ b = 0 ∨ (∃ k, b + 1 = 2 ^ k) ∨ Nat.Prime b)
      ∧ libcxx_validate 0 = none ∧ libcxx_validate 3 = none ∧ libcxx_validate 7 = none
      ∧ libcxx_validate 4 ≠ none ∧ libcxx_validate 8 ≠ none := by
  have hmain : ∀ b : ℕ,
      libcxx_validate b = none ↔ b = 0 ∨ (∃ k, b + 1 = 2 ^ k) ∨ Nat.Prime b := by
    intro b
    rw [libcxx_validate_eq_none_iff, is_pow2_eq_true_iff, is_prime_eq_true_iff]
  have hbad : ∀ b : ℕ, is_pow2 b = false → ¬ Nat.Prime b → b ≠ 0 → libcxx_validate b ≠ none := by
    intro b hp hq h0 h
    rcases (libcxx_validate_eq_none_iff b).mp h with hc | hc | hc
    · exact h0 hc
    · rw [hp] at hc
      exact absurd hc (by simp)
    · exact hq ((is_prime_eq_true_iff b).mp hc)
  refine ⟨hmain, ?_, ?_, ?_, ?_, ?_⟩
  · exact (hmain 0).mpr (Or.inl rfl)
  · exact (hmain 3).mpr (Or.inr (Or.inr (by norm_num)))
  · exact (hmain 7).mpr (Or.inr (Or.inr (by norm_num)))
  · exact hbad 4 (by decide) (by norm_num) (by norm_num)
  · exact hbad 8 (by decide) (by norm_num) (by norm_num)

/-- C10: `is_pow2 n` is true exactly when `n + 1` is a power of two (so for
`n = 2 ^ k - 1`, including `n = 0` and `n = 1`); consequently the
open-addressing model's `validate()` accepts exactly the capacities of the form
`2 ^ k - 1` that are at least the reported size, and rejects every true power
of two `2 ^ (j + 1)` (2, 4, 8, ...). -/
theorem toybox_C10_is_pow2_characterization :
    (∀ n : ℕ, is_pow2 n = true ↔ ∃ k, n + 1 = 2 ^ k)
      ∧ (∀ capacity size : ℕ,
          abseil_validate capacity size = none
            ↔ (∃ k, capacity + 1 = 2 ^ k) ∧ size ≤ capacity)
      ∧ (∀ j : ℕ, abseil_validate (2 ^ (j + 1)) 0 ≠ none) := by
  refine ⟨is_pow2_eq_true_iff, ?_, ?_⟩
  · intro capacity size
    unfold abseil_validate
    by_cases hp : is_pow2 capacity = true
    · simp only [hp, if_true]
      by_cases hlt : capacity < size
      · simp only [hlt, if_true]
        constructor
        · intro h
          exact absurd h (by simp)
        · intro h
          omega
      · simp only [hlt, if_false, true_iff]
        exact ⟨(is_pow2_eq_true_iff capacity).mp hp, by omega⟩
    · simp only [Bool.not_eq_true] at hp
      simp only [hp, Bool.false_eq_true, if_false]
      constructor
      · intro h
        exact absurd h (by simp)
      · rintro ⟨hk, -⟩
        have := (is_pow2_eq_true_iff capacity).mpr hk
        rw [hp] at this
        exact absurd this (by simp)
  · intro j h
    have hpow : is_pow2 (2 ^ (j + 1)) = true := by
      by_contra hc
      simp only [Bool.not_eq_true] at hc
      unfold abseil_validate at h
      rw [hc] at h
      simp at h
    obtain ⟨k, hk⟩ := (is_pow2_eq_true_iff _).mp hpow
    rcases k with _ | k
    · have h2 : (1 : ℕ) ≤ 2 ^ (j + 1) := Nat.one_le_two_pow
      simp only [pow_zero] at hk
      omega
    · rw [pow_succ, pow_succ] at hk
      omega

/-! ### iterable.py — `IterableContainerSynthetic`

The wrapped `IterableContainer` is abstracted by its observable behaviour at
one debugger stop: the result of `validate()`, of `get_size()`, and the finite
element sequence its (non-restartable) `iterator()` generator yields.  The
synthetic provider's four instance attributes become an explicit state record;
`update()` resets them and re-reads `validate()`. -/

structure Container (α : Type) where
  validate : Option String
  get_size : ℕ
  elements : List α

structure SynState (α : Type) where
  error : Option String
  size : Option ℕ
  iterator : Option (List α)
  cached_children : Option (List α)
deriving DecidableEq

/-- `IterableContainerSynthetic.update`. -/
def syn_update {α : Type} (c : Container α) : SynState α :=
  { error := c.validate, size := none, iterator := none, cached_children := none }

/-- Python truthiness of `self.size` in `if not self.size` (`None` and `0` are falsy). -/
def size_falsy : Option ℕ → Bool
  | none => true
  | some n => n == 0

/-- `IterableContainerSynthetic.num_children` (returns the value and the
post-call state, since the size is memoized). -/
def num_children {α : Type} (c : Container α) (s : SynState α) : ℕ × SynState α :=
  if s.error.isSome then (0, s)
  else if size_falsy s.size then (c.get_size, { s with size := some c.get_size })
  else (s.size.getD 0, s)

/-- Result of a Python call: a value, `None`, or an uncaught exception
(`IndexError` from list subscription). -/
inductive PyRes (α : Type) where
  | val : α → PyRes α
  | noneV : PyRes α
  | raise : PyRes α
deriving DecidableEq

/-- `IterableContainerSynthetic.get_child_at_index`.  Note the source guards a
single `next()` pull with `if cached <= index and self.iterator is not None`
(not a loop), and ends with `self.cached_children[index]`, which raises
`IndexError` when `index == len(self.cached_children)`. -/
def get_child_at_index {α : Type} (c : Container α) (rename_children : Bool)
    (rename : ℕ → α → α) (s : SynState α) (index : ℤ) : PyRes α × SynState α :=
  if s.error.isSome then (.noneV, s)
  else if index < 0 then (.noneV, s)
  else
    let init : ℕ × List α × Option (List α) :=
      match s.cached_children with
      | some cs => (cs.length, cs, s.iterator)
      | none => (0, [], some c.elements)
    let pulled : ℕ × List α × Option (List α) :=
      match init with
      | (cached, cs, it) =>
        if (cached : ℤ) ≤ index then
          match it with
          | some (x :: rest) =>
              (cached + 1, cs ++ [if rename_children then rename cached x else x], some rest)
          | some [] => (cached, cs, none)
          | none => (cached, cs, none)
        else (cached, cs, it)
    match pulled with
    | (cached, cs, it) =>
      let s2 : SynState α := { s with iterator := it, cached_children := some cs }
      if (cached : ℤ) < index then (.noneV, s2)
      else
        match cs.get? index.toNat with
        | some x => (.val x, s2)
        | none => (.raise, s2)

/-- A valid 3-element container (e.g. a healthy chained table holding 3 keys). -/
def c1_container : Container ℕ :=
  ⟨none, 3, [10, 20, 30]⟩

/-- C1: the claim says `getChildAtIndex(i)` pulls elements one at a time until
`i + 1` entries are cached (or the iterator is exhausted) and then returns the
cached entry at `i`, or nothing when `i` is past the end, without failing.  The
code instead pulls at most one element per call: on a fresh cache over a valid
3-element container, `getChildAtIndex(1)` evaluates `cached_children[1]` on a
1-element cache and raises `IndexError`, and `getChildAtIndex(2)` returns
`None` even though element 2 exists. -/
theorem toybox_C1_single_pull_raises :
    (get_child_at_index c1_container true (fun _ x => x) (syn_update c1_container) 1).1
        = PyRes.raise
      ∧ (get_child_at_index c1_container true (fun _ x => x) (syn_update c1_container) 2).1
        = PyRes.noneV := by
  exact ⟨rfl, rfl⟩

/-- A structurally valid table of size 0 whose iterator yields nothing. -/
def c7_container : Container ℕ :=
  ⟨none, 0, []⟩

/-- C7: the claim says a size-0 valid table gives `numChildren() == 0` (true)
and that `getChildAtIndex(0)` returns nothing without failing and without
invoking the physical iterator.  The code does report 0 children, but
`getChildAtIndex(0)` creates the iterator, advances it once (hitting
`StopIteration`), and then raises `IndexError` evaluating `cached_children[0]`
on the empty cache. -/
theorem toybox_C7_empty_table_raises :
    (num_children c7_container (syn_update c7_container)).1 = 0
      ∧ (get_child_at_index c7_container true (fun _ x => x) (syn_update c7_container) 0).1
        = PyRes.raise := by
  exact ⟨rfl, rfl⟩

/-- C5: when the wrapped model's `validate()` reports an error, `update()`
stores it, `numChildren()` returns 0, `getChildAtIndex(i)` returns `None` for
every index `i` with the state untouched, the result does not depend on the
underlying element sequence, and the iterator is never created. -/
theorem toybox_C5_error_shortcircuit {α : Type} (c : Container α) (e : String)
    (h : c.validate = some e) (rename_children : Bool) (rename : ℕ → α → α)
    (i : ℤ) (es : List α) :
    (num_children c (syn_update c)).1 = 0
      ∧ get_child_at_index c rename_children rename (syn_update c) i
          = (PyRes.noneV, syn_update c)
      ∧ get_child_at_index (Container.mk c.validate c.get_size es) rename_children rename
            (syn_update c) i
          = (PyRes.noneV, syn_update c)
      ∧ (syn_update c).iterator = none := by
  have herr : (syn_update c).error.isSome = true := by
    simp [syn_update, h]
  refine ⟨?_, ?_, ?_, rfl⟩
  · simp [num_children, herr]
  · simp [get_child_at_index, herr]
  · simp [get_child_at_index, herr]

/-- The `IterableContainer` facade of an `AbseilHashContainer` whose stored
capacity and (shifted) size fields read back as the given numbers. -/
def abseil_container (capacity size : ℕ) (elements : List ℕ) : Container ℕ :=
  ⟨abseil_validate capacity size, size, elements⟩

theorem toybox_C5_error_shortcircuit_witness :
    (abseil_container 8 0 []).validate = some "Capacity 8 is not pow2"
      ∧ (num_children (abseil_container 8 0 []) (syn_update (abseil_container 8 0 []))).1 = 0 :=
  ⟨rfl, (toybox_C5_error_shortcircuit (abseil_container 8 0 []) "Capacity 8 is not pow2" rfl
      true (fun _ x => x) 0 []).1⟩

/-! ### paging.py — `PagingSyntheticAdapter`

The wrapped collection is abstracted by its total child count (`total`, read in
`update()` via `wrapped.num_children()`) and its indexing function
`wrapped : ℕ → α` (`wrapped.get_child_at_index`).  `math.ceil(a / b)` on these
counts is modelled as exact ceiling division. -/

/-- `math.ceil(a / b)` for nonnegative integers. -/
def ceil_div (a b : ℕ) : ℕ :=
  (a + b - 1) / b

/-- `PagingSyntheticAdapter.pager_capacity`.  In every reachable call the slice
bound `self.levels - depth` is nonnegative, so `self.limits[:self.levels - depth]`
is `take (levels - depth)`. -/
def pager_capacity (total : ℕ) (limits : List ℕ) (levels : ℕ) (depth : ℤ) : ℕ :=
  if depth < 0 then total
  else (limits.take (levels - depth.toNat)).prod

/-- `PagingSyntheticAdapter.pager_num_children`. -/
def pager_num_children (total : ℕ) (limits : List ℕ) (levels : ℕ) (depth offset : ℕ) : ℕ :=
  let contains := min (total - offset) (pager_capacity total limits levels ((depth : ℤ) - 1))
  if levels = depth then contains
  else ceil_div contains (pager_capacity total limits levels (depth : ℤ))

/-- The scripted sub-range value's name `f"#{first} .. #{last}"`. -/
def pager_label (first last : ℕ) : String :=
  s!"#{first} .. #{last}"

/-- A child handed back by `pager_get_child_at_index`: either a real element of
the wrapped collection, or a freshly minted sub-range value carrying its name
and the `(level, offset)` of its `Pager` backend. -/
inductive PagerChild (α : Type) where
  | leaf : α → PagerChild α
  | node : String → ℕ → ℕ → PagerChild α
deriving DecidableEq

/-- `PagingSyntheticAdapter.pager_get_child_at_index`. -/
def pager_get_child_at_index {α : Type} (total : ℕ) (limits : List ℕ) (levels : ℕ)
    (wrapped : ℕ → α) (depth offset index : ℕ) : PagerChild α :=
  if levels ≤ depth then .leaf (wrapped (offset + index))
  else
    let capacity := pager_capacity total limits levels (depth : ℤ)
    let first := offset + capacity * index
    let last := min total (first + capacity - 1)
    .node (pager_label first last) (depth + 1) first

/-- The level-count loop of `PagingSyntheticAdapter.update` (`remain` starts at
the wrapped collection's total child count). -/
def compute_levels : ℕ → List ℕ → ℕ
  | _, [] => 0
  | remain, limit :: rest =>
      if remain ≤ limit then 0
      else compute_levels (ceil_div remain limit) rest + 1

/-- All leaf elements reachable from the pager node `(depth, offset)`,
depth-first and left-to-right: every child index below the node is queried; at
the deepest level the real element is collected, otherwise the walk recurses
into the synthesized sub-range node (cf. `pager_child_leaf`/`pager_child_node`
below for the agreement with `pager_get_child_at_index`). -/
def pager_leaves {α : Type} (total : ℕ) (limits : List ℕ) (levels : ℕ) (wrapped : ℕ → α)
    (depth offset : ℕ) : List α :=
  if h : levels ≤ depth then
    (List.range (pager_num_children total limits levels depth offset)).map
      (fun index => wrapped (offset + index))
  else
    ((List.range (pager_num_children total limits levels depth offset)).map
      (fun index =>
        pager_leaves total limits levels wrapped (depth + 1)
          (offset + pager_capacity total limits levels (depth : ℤ) * index))).flatten
termination_by levels - depth
decreasing_by omega

/-- At the deepest level, `pager_get_child_at_index` returns the real element
`wrapped(offset + index)`. -/
lemma pager_child_leaf {α : Type} (total : ℕ) (limits : List ℕ) (levels : ℕ)
    (wrapped : ℕ → α) (depth offset index : ℕ) (h : levels ≤ depth) :
    pager_get_child_at_index total limits levels wrapped depth offset index
      = .leaf (wrapped (offset + index)) := by
  simp [pager_get_child_at_index, h]

/-- Above the deepest level, `pager_get_child_at_index` mints the sub-range
node recursed into by `pager_leaves`. -/
lemma pager_child_node {α : Type} (total : ℕ) (limits : List ℕ) (levels : ℕ)
    (wrapped : ℕ → α) (depth offset index : ℕ) (h : depth < levels) :
    pager_get_child_at_index total limits levels wrapped depth offset index
      = .node
          (pager_label (offset + pager_capacity total limits levels (depth : ℤ) * index)
            (min total (offset + pager_capacity total limits levels (depth : ℤ) * index
              + pager_capacity total limits levels (depth : ℤ) - 1)))
          (depth + 1)
          (offset + pager_capacity total limits levels (depth : ℤ) * index) := by
  simp [pager_get_child_at_index, Nat.not_le.mpr h]

/-- C6: for limits `[100, 10]` over 1500 elements, `update()` computes 2 levels
of pagination, the root reports `ceil(1500/1000) = 2` sub-range groups, and the
capacity of a depth-0 child is the product `100 * 10 = 1000` of the limits. -/
theorem toybox_C6_levels_and_groups :
    compute_levels 1500 [100, 10] = 2
      ∧ pager_num_children 1500 [100, 10] (compute_levels 1500 [100, 10]) 0 0 = 2
      ∧ pager_capacity 1500 [100, 10] (compute_levels 1500 [100, 10]) 0 = 100 * 10 := by
  exact ⟨rfl, rfl, rfl⟩

/-- C9, counterexample: the claim says the final, partial sub-range group over
`N = 1500` elements is labeled with last real index `N - 1 = 1499`, never `N`.
The code labels the second root group `"#1000 .. #1500"` (it clamps with
`min(self.total, ...)` instead of `min(self.total - 1, ...)`), while the label
demanded by the claim would be `"#1000 .. #1499"`. -/
theorem toybox_C9_label_cex :
    pager_get_child_at_index 1500 [100, 10] 2 (fun i => i) 0 0 1
        = PagerChild.node "#1000 .. #1500" 1 1000
      ∧ pager_label 1000 (1500 - 1) = "#1000 .. #1499" := by
  exact ⟨rfl, rfl⟩

/-- C9, amended: every sub-range child at a non-leaf level is labeled
`"#first .. #last"` with `first = offset + capacityAtLevel * index` and
`last = min(N, first + capacityAtLevel - 1)`; for a group that ends strictly
inside the collection this is the last real index it spans, but for the final,
partial group `last` is `N` — one past the last real index `N - 1`. -/
theorem toybox_C9_label_amended {α : Type} (total : ℕ) (limits : List ℕ)
    (levels depth offset index : ℕ) (wrapped : ℕ → α) (h : depth < levels) :
    pager_get_child_at_index total limits levels wrapped depth offset index
        = PagerChild.node
            (pager_label (offset + pager_capacity total limits levels (depth : ℤ) * index)
              (min total (offset + pager_capacity total limits levels (depth : ℤ) * index
                + pager_capacity total limits levels (depth : ℤ) - 1)))
            (depth + 1)
            (offset + pager_capacity total limits levels (depth : ℤ) * index)
      ∧ (∀ first cap : ℕ, 0 < cap → first + cap ≤ total →
          min total (first + cap - 1) = first + cap - 1)
      ∧ (∀ first cap : ℕ, total ≤ first + cap - 1 →
          min total (first + cap - 1) = total) := by
  refine ⟨pager_child_node total limits levels wrapped depth offset index h, ?_, ?_⟩
  · intro first cap hc hle
    omega
  · intro first cap hle
    omega

theorem toybox_C9_label_amended_witness :
    (0 : ℕ) < 2
      ∧ pager_get_child_at_index 1500 [100, 10] 2 (fun i => (i : ℕ)) 0 0 0
          = PagerChild.node (pager_label 0 999) 1 0 :=
  ⟨by decide,
    ((toybox_C9_label_amended 1500 [100, 10] 2 0 0 0 (fun i => i) (by decide)).1).trans (by rfl)⟩

/-- The level-count loop never produces more levels than there are limits. -/
lemma compute_levels_le_length : ∀ (r : ℕ) (ls : List ℕ), compute_levels r ls ≤ ls.length := by
  intro r ls
  induction ls generalizing r with
  | nil => simp [compute_levels]
  | cons limit rest ih =>
    rw [compute_levels]
    by_cases h : r ≤ limit
    · simp [h]
    · rw [if_neg h]
      have := ih (ceil_div r limit)
      simp only [List.length_cons]
      omega

/-- Products of prefixes of positive limits are positive. -/
lemma prod_take_pos (limits : List ℕ) (hpos : ∀ l ∈ limits, 0 < l) (k : ℕ) :
    0 < (limits.take k).prod := by
  apply List.prod_pos
  intro a ha
  exact hpos a (List.take_subset k limits ha)

lemma ceil_div_zero (b : ℕ) : ceil_div 0 b = 0 := by
  rcases Nat.eq_zero_or_pos b with h | h
  · subst h
    rfl
  · unfold ceil_div
    rw [Nat.zero_add, Nat.div_eq_of_lt (by omega)]

/-- Peeling one full-or-partial chunk off a ceiling division. -/
lemma ceil_div_succ_step (S b : ℕ) (hS : 0 < S) (hb : 0 < b) :
    ceil_div S b = ceil_div (S - b) b + 1 := by
  unfold ceil_div
  rcases le_or_lt S b with h | h
  · have h1 : S + b - 1 = (S - 1) + b := by omega
    have h2 : S - b = 0 := by omega
    rw [h1, Nat.add_div_right _ hb, h2, Nat.zero_add,
      Nat.div_eq_of_lt (by omega), Nat.div_eq_of_lt (by omega)]
  · have h1 : S + b - 1 = (S - 1) + b := by omega
    have h2 : S - b + b - 1 = (S - 1 - b) + b := by omega
    have key : (S - 1) / b = (S - 1 - b) / b + 1 := by
      conv_lhs => rw [show S - 1 = (S - 1 - b) + b by omega]
      rw [Nat.add_div_right _ hb]
    rw [h1, h2, Nat.add_div_right _ hb, Nat.add_div_right _ hb, key]

lemma ceil_div_mul_self (b m : ℕ) (hb : 0 < b) : ceil_div (b * m) b = m := by
  unfold ceil_div
  have h1 : b * m + b - 1 = b * m + (b - 1) := by omega
  rw [h1, Nat.mul_add_div hb, Nat.div_eq_of_lt (by omega), Nat.add_zero]

/-- Splitting `[off, off + S)` into `ceil(S / cap)` consecutive chunks of
capacity `cap` (the last one partial) reassembles the whole window. -/
lemma range'_chunks (cap : ℕ) (hcap : 0 < cap) :
    ∀ (S off : ℕ),
      ((List.range (ceil_div S cap)).map
        (fun i => List.range' (off + cap * i) (min (S - cap * i) cap))).flatten
        = List.range' off S := by
  intro S
  induction S using Nat.strong_induction_on with
  | _ S ih =>
    intro off
    rcases Nat.eq_zero_or_pos S with h0 | hS
    · subst h0
      rw [ceil_div_zero]
      rfl
    · rw [ceil_div_succ_step S cap hS hcap, List.range_succ_eq_map, List.map_cons,
        List.flatten_cons, List.map_map]
      have hhead : List.range' (off + cap * 0) (min (S - cap * 0) cap)
          = List.range' off (min S cap) := by
        norm_num
      have htail :
          (List.range (ceil_div (S - cap) cap)).map
            ((fun i => List.range' (off + cap * i) (min (S - cap * i) cap)) ∘ Nat.succ)
          = (List.range (ceil_div (S - cap) cap)).map
            (fun i => List.range' ((off + cap) + cap * i) (min ((S - cap) - cap * i) cap)) := by
        apply List.map_congr_left
        intro i _
        simp only [Function.comp_apply]
        have e1 : off + cap * Nat.succ i = off + cap + cap * i := by
          rw [Nat.mul_succ]
          omega
        have e2 : S - cap * Nat.succ i = S - cap - cap * i := by
          rw [Nat.mul_succ]
          omega
        rw [e1, e2]
      rw [hhead, htail, ih (S - cap) (by omega) (off + cap)]
      rcases le_or_lt S cap with hle | hgt
      · have hz : S - cap = 0 := by omega
        rw [hz, min_eq_left hle]
        simp
      · rw [min_eq_right (by omega), List.range'_append_1 off cap (S - cap)]
        congr 1
        omega

/-- Pointwise agreement of each chunk's true span with its window-relative
span: either the node's window already ends at the end of the collection, or
the window is a whole multiple of the chunk capacity, so every chunk the code
enumerates is full. -/
lemma chunk_min_eq (total offset cap C S : ℕ) (hcap : 0 < cap)
    (hsp : total - offset ≤ C ∨ ∃ mfac, C = cap * mfac)
    (hS : S = min (total - offset) C) :
    ∀ i ∈ List.range (ceil_div S cap),
      min (total - (offset + cap * i)) cap = min (S - cap * i) cap := by
  intro i hi
  rw [List.mem_range] at hi
  rcases hsp with hTC | ⟨mfac, hCfac⟩
  · rw [hS, min_eq_left hTC]
    revert hi
    generalize cap * i = j
    intro hi
    omega
  · rcases le_or_lt (total - offset) C with hTC | hCT
    · rw [hS, min_eq_left hTC]
      clear hCfac
      revert hi
      generalize cap * i = j
      intro hi
      omega
    · have hSeq : S = C := by
        rw [hS]
        exact min_eq_right (le_of_lt hCT)
      have hi2 : i < mfac := by
        rw [hSeq, hCfac, ceil_div_mul_self cap mfac hcap] at hi
        exact hi
      have hmul : cap * i + cap ≤ C := by
        calc cap * i + cap = cap * (i + 1) := by rw [Nat.mul_succ]
        _ ≤ cap * mfac := Nat.mul_le_mul_left cap (by omega)
        _ = C := hCfac.symm
      rw [hSeq]
      clear hCfac hi hi2 hS hSeq
      revert hmul
      generalize cap * i = j
      intro hmul
      omega

/-- The window invariant of the pager walk: the leaves reachable from node
`(depth, offset)` are exactly the contiguous real elements
`[offset, offset + min(total - offset, capacityAt(depth - 1)))`.  The root is
the only node at depth 0. -/
lemma pager_leaves_window (total : ℕ) (limits : List ℕ) (hpos : ∀ l ∈ limits, 0 < l)
    (levels : ℕ) (hlev : levels ≤ limits.length) {α : Type} (wrapped : ℕ → α) :
    ∀ (fuel depth offset : ℕ), levels - depth = fuel → depth ≤ levels →
      (depth = 0 → offset = 0) →
      pager_leaves total limits levels wrapped depth offset
        = (List.range' offset
            (min (total - offset)
              (pager_capacity total limits levels ((depth : ℤ) - 1)))).map wrapped := by
  intro fuel
  induction fuel with
  | zero =>
    intro depth offset hfuel hdle h0
    have hdepth : levels = depth := by omega
    rw [pager_leaves, dif_pos (by omega)]
    simp only [pager_num_children]
    rw [if_pos hdepth, List.range'_eq_map_range, List.map_map]
    rfl
  | succ fuel ih =>
    intro depth offset hfuel hdle h0
    have hdlt : depth < levels := by omega
    have hcappos : 0 < pager_capacity total limits levels (depth : ℤ) := by
      rw [pager_capacity, if_neg (by exact not_lt.mpr (Int.natCast_nonneg depth))]
      exact prod_take_pos limits hpos _
    set cap := pager_capacity total limits levels (depth : ℤ) with hcap
    set C := pager_capacity total limits levels ((depth : ℤ) - 1) with hC
    rw [pager_leaves, dif_neg (by omega)]
    simp only [pager_num_children]
    rw [if_neg (show ¬ levels = depth by omega)]
    rw [← hcap, ← hC]
    set S := min (total - offset) C with hS
    have hchild : ∀ i : ℕ,
        pager_leaves total limits levels wrapped (depth + 1) (offset + cap * i)
          = (List.range' (offset + cap * i)
              (min (total - (offset + cap * i)) cap)).map wrapped := by
      intro i
      have hrec := ih (depth + 1) (offset + cap * i) (by omega) (by omega)
        (fun hcon => absurd hcon (Nat.succ_ne_zero depth))
      have e : ((depth + 1 : ℕ) : ℤ) - 1 = (depth : ℤ) := by push_cast; ring
      rw [e, ← hcap] at hrec
      exact hrec
    have hsplit : total - offset ≤ C ∨ ∃ mfac, C = cap * mfac := by
      rcases Nat.eq_zero_or_pos depth with hd0 | hdpos
      · left
        have ho : offset = 0 := h0 hd0
        have hCt : C = total := by
          rw [hC, hd0, pager_capacity, if_pos (by norm_num)]
        rw [hCt, ho]
        omega
      · right
        have hk : levels - depth < limits.length := by omega
        refine ⟨limits.get ⟨levels - depth, hk⟩, ?_⟩
        have e1 : ¬ ((depth : ℤ) - 1 < 0) := by omega
        have e2 : ((depth : ℤ) - 1).toNat = depth - 1 := by omega
        have e3 : ((depth : ℤ)).toNat = depth := by omega
        rw [hC, pager_capacity, if_neg e1, e2, hcap, pager_capacity,
          if_neg (by exact not_lt.mpr (Int.natCast_nonneg depth)), e3]
        have e4 : levels - (depth - 1) = (levels - depth) + 1 := by omega
        rw [e4, List.prod_take_succ limits (levels - depth) hk]
        rfl
    have hstep1 : (List.range (ceil_div S cap)).map
          (fun index => pager_leaves total limits levels wrapped (depth + 1)
            (offset + cap * index))
        = (List.range (ceil_div S cap)).map
          (fun index => (List.range' (offset + cap * index)
            (min (total - (offset + cap * index)) cap)).map wrapped) :=
      List.map_congr_left (fun i _ => hchild i)
    have hstep2 : (List.range (ceil_div S cap)).map
          (fun index => (List.range' (offset + cap * index)
            (min (total - (offset + cap * index)) cap)).map wrapped)
        = (List.range (ceil_div S cap)).map
          (fun index => (List.range' (offset + cap * index)
            (min (S - cap * index) cap)).map wrapped) := by
      apply List.map_congr_left
      intro i hi
      rw [chunk_min_eq total offset cap C S hcappos hsplit hS i hi]
    rw [hstep1, hstep2]
    rw [show (fun index => (List.range' (offset + cap * index)
          (min (S - cap * index) cap)).map wrapped)
        = (List.map wrapped) ∘ (fun index => List.range' (offset + cap * index)
          (min (S - cap * index) cap))
      from rfl]
    rw [← List.map_map, ← List.map_flatten, range'_chunks cap hcappos S offset]

/-- C3: for any total element count and any list of positive per-level limits,
flattening all leaf elements reachable through the pager's synthesized tree
depth-first, left-to-right yields exactly the elements of the wrapped
collection at indices `0..N-1`, in order. -/
theorem toybox_C3_pager_roundtrip {α : Type} (total : ℕ) (limits : List ℕ) (wrapped : ℕ → α)
    (hpos : ∀ l ∈ limits, 0 < l) :
    pager_leaves total limits (compute_levels total limits) wrapped 0 0
      = (List.range total).map wrapped := by
  have hwin := pager_leaves_window total limits hpos (compute_levels total limits)
    (compute_levels_le_length total limits) wrapped (compute_levels total limits) 0 0
    (by omega) (by omega) (fun _ => rfl)
  rw [hwin, pager_capacity, if_pos (by norm_num)]
  rw [show min (total - 0) total = total by omega]
  rw [← List.range_eq_range']

theorem toybox_C3_pager_roundtrip_witness :
    (∀ l ∈ [3, 2], 0 < l)
      ∧ pager_leaves 10 [3, 2] (compute_levels 10 [3, 2]) (fun i => i) 0 0
        = (List.range 10).map (fun i => i) :=
  ⟨by decide, toybox_C3_pager_roundtrip 10 [3, 2] (fun i => i) (by decide)⟩

/-! ### sorting.py — `try_extract_natural_index` and `SortingSyntheticAdapter`

The slice of the `lldb.SBValue` API this code touches is embedded as a finite
value tree: per-value data (unqualified type name, field count of the type,
canonical basic type, unsigned/signed numeric reads, `IsSynthetic`, load
address) plus named children (serving both `GetChildMemberWithName`, via
lookup, and `GetChildAtIndex`, via position). -/

inductive Basic where
  | uint
  | ulong
  | ulonglong
  | sint
  | slong
  | slonglong
  | other
deriving DecidableEq

structure VData where
  typeName : String
  numFields : ℕ
  basic : Basic
  valU : ℤ
  valS : ℤ
  synth : Bool
  addr : ℕ
deriving DecidableEq

inductive Val where
  | mk : VData → List (String × Val) → Val

def Val.data : Val → VData
  | .mk d _ => d

def Val.children : Val → List (String × Val)
  | .mk _ cs => cs

/-- An invalid `SBValue` (missing member / out-of-range child). -/
def invalid_val : Val :=
  .mk ⟨"", 0, .other, 0, 0, false, 0⟩ []

/-- `GetChildMemberWithName` (`none` when the member does not exist, which in
LLDB is an invalid — falsy — value). -/
def Val.member (v : Val) (n : String) : Option Val :=
  (v.children.find? (fun p => p.1 == n)).map (fun p => p.2)

/-- `GetChildAtIndex`. -/
def Val.childAt (v : Val) (i : ℕ) : Val :=
  ((v.children.get? i).map (fun p => p.2)).getD invalid_val

/-- `sorting.try_extract_natural_index`: one single-field drilldown, then the
canonical basic type decides between an unsigned read, a signed read, or
nothing. -/
def try_extract_natural_index (valobj : Val) : Option ℤ :=
  let v := if valobj.data.numFields == 1 then valobj.childAt 0 else valobj
  match v.data.basic with
  | .uint => some v.data.valU
  | .ulong => some v.data.valU
  | .ulonglong => some v.data.valU
  | .sint => some v.data.valS
  | .slong => some v.data.valS
  | .slonglong => some v.data.valS
  | .other => none

/-- `key = self.is_map and child.GetChildMemberWithName('first') or child`
(an invalid member is falsy, so the `or` falls back to `child`). -/
def map_key (is_map : Bool) (child : Val) : Val :=
  if is_map then (child.member "first").getD child else child

/-- Python dict assignment `child_map[k] = v` on an insertion-ordered
association list: overwrite in place when the key is present, else append. -/
def dict_insert (m : List ((ℤ × ℕ) × (String × Val))) (k : ℤ × ℕ) (v : String × Val) :
    List ((ℤ × ℕ) × (String × Val)) :=
  if m.any (fun p => p.1 == k) then m.map (fun p => if p.1 == k then (k, v) else p)
  else m ++ [(k, v)]

/-- Python's tuple comparison on the `(natural_index, load_address)` dict keys,
as used by `sorted(child_map.items())` (values are never compared: dict keys
are unique). -/
def key_le (a b : ℤ × ℕ) : Bool :=
  if a.1 < b.1 then true
  else if a.1 = b.1 then decide (a.2 ≤ b.2)
  else false

/-- Strict ascending order on `(naturalIndex, elementAddress)` pairs. -/
def key_lt (a b : ℤ × ℕ) : Prop :=
  a.1 < b.1 ∨ (a.1 = b.1 ∧ a.2 < b.2)

instance (a b : ℤ × ℕ) : Decidable (key_lt a b) := by
  unfold key_lt
  infer_instance

/-- `f'[{iter_index}]'`. -/
def iter_name (i : ℕ) : String :=
  s!"[{i}]"

/-- `f'{prefix}({natural_index})'`. -/
def indexed_name (pfx : String) (ni : ℤ) : String :=
  s!"{pfx}({ni})"

/-- One iteration of the loop in `SortingSyntheticAdapter.populate`; the
accumulator is the pair `(child_list, child_map)`, the argument the enumerated
`(iter_index, child)`.  Entries are `(display_name, value)` pairs
(`rename_valobj` keeps the value and changes the name). -/
def populate_step (is_map : Bool)
    (acc : List (String × Val) × List ((ℤ × ℕ) × (String × Val)))
    (ic : ℕ × Val) : List (String × Val) × List ((ℤ × ℕ) × (String × Val)) :=
  let iter_index := ic.1
  let child := ic.2
  let key := map_key is_map child
  match try_extract_natural_index key with
  | none => (acc.1 ++ [(iter_name iter_index, child)], acc.2)
  | some natural_index =>
      let pfx := key.data.typeName
      let child2 := if is_map ∧ key.data.synth = false
        then (child.member "second").getD invalid_val else child
      (acc.1, dict_insert acc.2 (natural_index, child2.data.addr)
        (indexed_name pfx natural_index, child2))

/-- `SortingSyntheticAdapter.populate`: iterate the wrapped children in
iteration order, then flush the buffered natural-index entries in sorted key
order. -/
def populate (is_map : Bool) (children : List Val) : List (String × Val) :=
  let acc := children.enum.foldl (populate_step is_map) ([], [])
  acc.1 ++ (acc.2.mergeSort (fun p q => key_le p.1 q.1)).map (fun p => p.2)

/-- The keyed dict entry a single child contributes (`none` when the child has
no natural index and is emitted eagerly instead). -/
def keyed_entry (is_map : Bool) (child : Val) : Option ((ℤ × ℕ) × (String × Val)) :=
  let key := map_key is_map child
  match try_extract_natural_index key with
  | none => none
  | some natural_index =>
      let pfx := key.data.typeName
      let child2 := if is_map ∧ key.data.synth = false
        then (child.member "second").getD invalid_val else child
      some ((natural_index, child2.data.addr), (indexed_name pfx natural_index, child2))

/-- `populate_step` factored through `keyed_entry`. -/
lemma populate_step_eq (is_map : Bool)
    (acc : List (String × Val) × List ((ℤ × ℕ) × (String × Val))) (i : ℕ) (child : Val) :
    populate_step is_map acc (i, child)
      = match keyed_entry is_map child with
        | none => (acc.1 ++ [(iter_name i, child)], acc.2)
        | some kv => (acc.1, dict_insert acc.2 kv.1 kv.2) := by
  unfold populate_step keyed_entry
  cases h : try_extract_natural_index (map_key is_map child) <;> simp [h]

/-- `populate` on a single child. -/
lemma populate_singleton (is_map : Bool) (c : Val) :
    populate is_map [c]
      = match keyed_entry is_map c with
        | none => [(iter_name 0, c)]
        | some kv => [kv.2] := by
  unfold populate
  rw [show ([c].enum) = [(0, c)] from rfl, List.foldl_cons, List.foldl_nil, populate_step_eq]
  cases h : keyed_entry is_map c with
  | none => simp
  | some kv => simp [dict_insert]

/-- The element of a map whose key is a single-field wrapper struct `Id` (not
synthetic) around an unsigned int with value 7; the element sits at address 32,
its key at 32, its mapped value at 48. -/
def c8_inner : Val :=
  .mk ⟨"unsigned int", 0, .uint, 7, 7, false, 40⟩ []

def c8_key : Val :=
  .mk ⟨"Id", 1, .other, 0, 0, false, 32⟩ [("value", c8_inner)]

def c8_second : Val :=
  .mk ⟨"Payload", 2, .other, 0, 0, false, 48⟩ []

def c8_elem : Val :=
  .mk ⟨"pair", 2, .other, 0, 0, false, 32⟩ [("first", c8_key), ("second", c8_second)]

/-- C8, counterexample: the claim says the payload is narrowed to the mapped
value exactly when the key required *no unwrapping* to become numeric.  Here
the key `c8_key` is a single-field wrapper (`numFields = 1`, itself not an
integral type), so its natural index 7 is obtained only after unwrapping — by
the claim the full pair should remain — yet the code narrows the payload to
the `second` member, because its actual test is `not key.IsSynthetic()`. -/
theorem toybox_C8_narrow_cex :
    c8_key.data.numFields = 1
      ∧ c8_key.data.basic = Basic.other
      ∧ c8_key.data.synth = false
      ∧ try_extract_natural_index c8_key = some 7
      ∧ populate true [c8_elem] = [("Id(7)", c8_second)]
      ∧ c8_second ≠ c8_elem := by
  refine ⟨rfl, rfl, rfl, rfl, ?_, ?_⟩
  · rw [populate_singleton]
    rfl
  · intro hc
    exact absurd (congrArg (fun v => v.data.typeName) hc) (by decide)

/-- C8, amended: for a map element whose key yields a natural index, the
displayed payload is narrowed to the `second` member exactly when the key
value is *not synthetic* (has no synthetic children provider attached),
regardless of whether a single-field unwrapping was needed to reach the
numeric value; a synthetic key keeps the full key/value pair as payload. -/
theorem toybox_C8_narrow_amended (child : Val) (ni : ℤ)
    (h : try_extract_natural_index (map_key true child) = some ni) :
    populate true [child]
      = [(indexed_name (map_key true child).data.typeName ni,
          if (map_key true child).data.synth = true then child
          else (child.member "second").getD invalid_val)] := by
  rw [populate_singleton]
  simp only [keyed_entry, h]
  by_cases hs : (map_key true child).data.synth <;> simp [hs]

theorem toybox_C8_narrow_amended_witness :
    try_extract_natural_index (map_key true c8_elem) = some 7
      ∧ populate true [c8_elem]
        = [(indexed_name (map_key true c8_elem).data.typeName 7,
            if (map_key true c8_elem).data.synth = true then c8_elem
            else (c8_elem.member "second").getD invalid_val)] :=
  ⟨rfl, toybox_C8_narrow_amended c8_elem 7 rfl⟩

/-- The `(naturalIndex, elementAddress)` dict keys contributed by a child
sequence, in iteration order. -/
def entry_keys (is_map : Bool) (l : List Val) : List (ℤ × ℕ) :=
  (l.filterMap (keyed_entry is_map)).map (fun p => p.1)

lemma key_le_eq_true_iff (a b : ℤ × ℕ) :
    key_le a b = true ↔ a.1 < b.1 ∨ (a.1 = b.1 ∧ a.2 ≤ b.2) := by
  unfold key_le
  by_cases h1 : a.1 < b.1
  · simp [h1]
  · by_cases h2 : a.1 = b.1 <;> simp [h1, h2]

lemma key_le_trans (a b c : ℤ × ℕ) : key_le a b → key_le b c → key_le a c := by
  intro h1 h2
  rw [key_le_eq_true_iff] at h1 h2 ⊢
  omega

lemma key_le_total (a b : ℤ × ℕ) : key_le a b || key_le b a := by
  rw [Bool.or_eq_true, key_le_eq_true_iff, key_le_eq_true_iff]
  omega

lemma key_le_and_ne_lt (a b : ℤ × ℕ) (h1 : key_le a b = true) (h2 : a ≠ b) : key_lt a b := by
  rw [key_le_eq_true_iff] at h1
  unfold key_lt
  have hne : ¬ (a.1 = b.1 ∧ a.2 = b.2) := fun hc => h2 (Prod.ext hc.1 hc.2)
  omega

/-- Running the `populate` loop over `l` (enumerated from `n`) on accumulators
`(cl, cm)`: the eagerly emitted children are appended to `cl` in iteration
order, and — as long as the contributed dict keys are fresh for `cm` and
mutually distinct, so no dict assignment overwrites — the keyed entries are
appended to `cm` in iteration order. -/
lemma populate_fold (is_map : Bool) :
    ∀ (l : List Val) (n : ℕ) (cl : List (String × Val))
      (cm : List ((ℤ × ℕ) × (String × Val))),
      (∀ k ∈ entry_keys is_map l, ∀ p ∈ cm, p.1 ≠ k) →
      (entry_keys is_map l).Nodup →
      (l.enumFrom n).foldl (populate_step is_map) (cl, cm)
        = (cl ++ ((l.enumFrom n).filter
              (fun p => (keyed_entry is_map p.2).isNone)).map
              (fun p => (iter_name p.1, p.2)),
           cm ++ l.filterMap (keyed_entry is_map)) := by
  intro l
  induction l with
  | nil =>
    intro n cl cm hfresh hnodup
    simp
  | cons c rest ih =>
    intro n cl cm hfresh hnodup
    rw [List.enumFrom_cons, List.foldl_cons, populate_step_eq]
    cases h : keyed_entry is_map c with
    | none =>
      have hek : entry_keys is_map (c :: rest) = entry_keys is_map rest := by
        unfold entry_keys
        rw [List.filterMap_cons_none h]
      rw [ih (n + 1) (cl ++ [(iter_name n, c)]) cm
        (by rw [hek] at hfresh; exact hfresh) (by rw [hek] at hnodup; exact hnodup)]
      simp [h, List.filterMap_cons_none h, List.append_assoc]
    | some kv =>
      have hek : entry_keys is_map (c :: rest) = kv.1 :: entry_keys is_map rest := by
        unfold entry_keys
        rw [List.filterMap_cons_some h, List.map_cons]
      have hnodup2 : (kv.1 :: entry_keys is_map rest).Nodup := by
        rw [hek] at hnodup
        exact hnodup
      have hfresh2 : ∀ k ∈ entry_keys is_map rest, ∀ p ∈ cm ++ [kv], p.1 ≠ k := by
        intro k hk p hp
        rcases List.mem_append.mp hp with hp | hp
        · exact hfresh k (by rw [hek]; exact List.mem_cons_of_mem _ hk) p hp
        · rcases List.mem_singleton.mp hp with rfl
          intro hc
          exact (List.nodup_cons.mp hnodup2).1 (hc ▸ hk)
      have hins : dict_insert cm kv.1 kv.2 = cm ++ [kv] := by
        unfold dict_insert
        rw [if_neg]
        rw [Bool.not_eq_true, List.any_eq_false]
        intro p hp
        rw [Bool.not_eq_true, beq_eq_false_iff_ne, ne_eq]
        exact hfresh kv.1 (by rw [hek]; exact List.mem_cons_self _ _) p hp
      dsimp only
      rw [hins, ih (n + 1) cl (cm ++ [kv]) hfresh2 (List.nodup_cons.mp hnodup2).2]
      simp [h, List.filterMap_cons_some h, List.append_assoc]

/-- C2: with the `(naturalIndex, elementAddress)` keys pairwise distinct (two
equal natural indices are still distinguished by their element addresses), the
reconstruction emits all elements without a natural index first, in original
iteration order, and afterwards every element with a natural index — all of
them retained — in strictly ascending, hence deterministic and total, order of
`(naturalIndex, elementAddress)`. -/
theorem toybox_C2_natural_order (is_map : Bool) (children : List Val)
    (h : (entry_keys is_map children).Nodup) :
    ∃ flush : List ((ℤ × ℕ) × (String × Val)),
      populate is_map children
        = ((children.enum.filter (fun p => (keyed_entry is_map p.2).isNone)).map
            (fun p => (iter_name p.1, p.2))) ++ flush.map (fun p => p.2)
      ∧ flush.Perm (children.filterMap (keyed_entry is_map))
      ∧ (flush.map (fun p => p.1)).Pairwise key_lt := by
  have hperm : ((children.filterMap (keyed_entry is_map)).mergeSort
        (fun p q => key_le p.1 q.1)).Perm (children.filterMap (keyed_entry is_map)) :=
    List.mergeSort_perm _ _
  refine ⟨(children.filterMap (keyed_entry is_map)).mergeSort (fun p q => key_le p.1 q.1),
    ?_, hperm, ?_⟩
  · unfold populate
    have henum : children.enum = children.enumFrom 0 := rfl
    rw [henum, populate_fold is_map children 0 [] [] (by intro k hk p hp; cases hp) h]
    simp
  · have hsorted := List.sorted_mergeSort
      (fun a b c hab hbc => key_le_trans a.1 b.1 c.1 hab hbc)
      (fun a b => key_le_total a.1 b.1)
      (children.filterMap (keyed_entry is_map))
    have hkeysperm := hperm.map (fun p => p.1)
    have hkeysnodup : (((children.filterMap (keyed_entry is_map)).mergeSort
          (fun p q => key_le p.1 q.1)).map (fun p => p.1)).Nodup :=
      hkeysperm.nodup_iff.mpr h
    rw [List.pairwise_map]
    have hne : ((children.filterMap (keyed_entry is_map)).mergeSort
          (fun p q => key_le p.1 q.1)).Pairwise (fun a b => a.1 ≠ b.1) := by
      have := hkeysnodup
      unfold List.Nodup at this
      rw [List.pairwise_map] at this
      exact this
    exact hsorted.imp₂ (fun a b h1 h2 => key_le_and_ne_lt a.1 b.1 h1 h2) hne

/-- A plain unsigned-integer set element at a given address. -/
def sample_uint (v : ℤ) (addr : ℕ) : Val :=
  .mk ⟨"unsigned long", 0, .ulong, v, v, false, addr⟩ []

/-- The spec scenario: keys 5, 12, 5 at addresses 100, 50, 10 — two elements
share natural index 5 and are kept apart by their addresses. -/
def c2_children : List Val :=
  [sample_uint 5 100, sample_uint 12 50, sample_uint 5 10]

theorem toybox_C2_natural_order_witness :
    (entry_keys false c2_children).Nodup
      ∧ ∃ flush : List ((ℤ × ℕ) × (String × Val)),
          populate false c2_children
            = ((c2_children.enum.filter (fun p => (keyed_entry false p.2).isNone)).map
                (fun p => (iter_name p.1, p.2))) ++ flush.map (fun p => p.2)
          ∧ flush.Perm (c2_children.filterMap (keyed_entry false))
          ∧ (flush.map (fun p => p.1)).Pairwise key_lt :=
  ⟨by decide, toybox_C2_natural_order false c2_children (by decide)⟩

end Toybox
